import Mathlib

/-!
Verification of the label-encoding, metadata-materialization and
batch-collation logic of the chest X-ray fine-tuning walkthrough
(`get-started/walkthrough.ipynb`).

Python strings are modelled as lists of characters (`PyStr`), so that
`str.split("|")` and `"|".join(...)` become structurally recursive
functions whose round-trip behaviour can be proved.  Floating-point
label entries are always exactly `0.0` or `1.0` in the source, so the
vectors are modelled over `ℚ` with entries `0` and `1`.
-/

/-- A Python string, modelled as its list of characters. -/
abbrev PyStr := List Char

/-- The label delimiter used throughout the notebook. -/
def pipeChar : Char := '|'

/-- `s.split("|")` from Python: splits on every occurrence of the
delimiter; the empty string splits to `[""]`, and `n` delimiters yield
`n + 1` (possibly empty) fields. -/
def splitPipe : PyStr → List PyStr
  | [] => [[]]
  | c :: cs =>
    if c = pipeChar then
      [] :: splitPipe cs
    else
      match splitPipe cs with
      | [] => [[c]]
      | t :: ts => (c :: t) :: ts

/-- `"|".join(tokens)` from Python: interleaves the delimiter between
consecutive tokens. -/
def joinPipe : List PyStr → PyStr
  | [] => []
  | [t] => t
  | t :: ts => t ++ pipeChar :: joinPipe ts

/-- `np.unique(data['Finding Labels'].str.split("|").aggregate(np.concatenate)).tolist()`:
split every raw label string of the column on `"|"`, flatten, and return
the sorted list of distinct tokens (lexicographic order on characters,
as `np.unique` sorts its string input). -/
def unique_labels (col : List PyStr) : List PyStr :=
  ((col.flatMap splitPipe).dedup).insertionSort (· ≤ ·)

/-- `label_index = {v: i for i, v in enumerate(unique_labels)}` and the
lookup `label_index[cl]`: `none` models the `KeyError` raised by a
missing key.  `unique_labels` never holds duplicates, so first-index
lookup coincides with Python's insertion-order dict semantics. -/
def label_index (vocab : List PyStr) (tok : PyStr) : Option Nat :=
  match vocab with
  | [] => none
  | v :: vs => if v = tok then some 0 else (label_index vs tok).map (· + 1)

/-- `[label_index[cl] for cl in string.split("|")]`: the list
comprehension evaluates left to right and the first missing key raises
`KeyError`, modelled by `none`. -/
def collectIndices (vocab : List PyStr) : List PyStr → Option (List Nat)
  | [] => some []
  | t :: ts =>
    match label_index vocab t, collectIndices vocab ts with
    | some i, some is => some (i :: is)
    | _, _ => none

/-- `string_to_N_hot`: look up the index of every token of the split
string, then build a zero vector of the vocabulary's length and set the
collected indices to `1` (`label[true_index] = 1`).  `none` models the
uncaught `KeyError` on an unknown token. -/
def string_to_N_hot (vocab : List PyStr) (s : PyStr) : Option (List ℚ) :=
  match collectIndices vocab (splitPipe s) with
  | none => none
  | some true_index =>
    some ((List.range vocab.length).map (fun i => if i ∈ true_index then (1 : ℚ) else 0))

/-- One line of the `metadata.jsonl` artifact: a JSON record with
exactly the fields `file_name` and `labels`, as produced by
`data[["Image Index", "labels"]].rename(columns={"Image Index": "file_name"}).to_json(..., orient='records', lines=True)`. -/
structure MetaRecord where
  file_name : PyStr
  labels : List ℚ
deriving DecidableEq

/-- The state of the `metadata.jsonl` file slot on disk: `none` when the
file does not exist, `some lines` when it exists with those records. -/
abbrev FileSlot := Option (List MetaRecord)

/-- `if not metadata_file.is_file(): data[...].to_json(...)`: when the
file already exists nothing is written; otherwise one record per input
row is written, in row order. -/
def write_metadata (existing : FileSlot) (rows : List (PyStr × List ℚ)) : FileSlot :=
  match existing with
  | some c => some c
  | none => some (rows.map (fun r => ⟨r.1, r.2⟩))

/-- A torch tensor, modelled by its shape and its flattened
(row-major) data. -/
structure PyTensor where
  shape : List Nat
  data : List ℚ
deriving DecidableEq

/-- `torch.stack(ts)`: requires a non-empty list of tensors of one
common shape (else it raises, modelled by `none`) and concatenates them
along a new leading batch dimension. -/
def torch_stack (ts : List PyTensor) : Option PyTensor :=
  match ts with
  | [] => none
  | t :: rest =>
    if rest.all (fun u => decide (u.shape = t.shape)) then
      some ⟨(t :: rest).length :: t.shape, (t :: rest).flatMap (fun u => u.data)⟩
    else
      none

/-- `torch.tensor(rows)` for a list of numeric lists: all rows must
share one length (else it raises, modelled by `none`); the result is a
2-d tensor holding the rows in order.  `torch.tensor([])` yields an
empty 1-d tensor. -/
def torch_tensor_2d (rows : List (List ℚ)) : Option PyTensor :=
  match rows with
  | [] => some ⟨[0], []⟩
  | r :: rest =>
    if rest.all (fun u => decide (u.length = r.length)) then
      some ⟨[(r :: rest).length, r.length], (r :: rest).flatMap id⟩
    else
      none

/-- A transformed dataset example as seen by the collator: a pixel
tensor under the key `pixel_values` and a numeric label vector under
the key `labels`. -/
structure TransformedExample where
  pixel_values : PyTensor
  labels : List ℚ
deriving DecidableEq

/-- The batch dictionary returned by the collator, with exactly the
keys `pixel_values` and `labels`. -/
structure CollatedBatch where
  pixel_values : PyTensor
  labels : PyTensor
deriving DecidableEq

/-- `vit_data_collator`: stacks the examples' pixel tensors with
`torch.stack` and their label vectors with `torch.tensor`; any raised
error propagates (modelled by `none`). -/
def vit_data_collator (examples : List TransformedExample) : Option CollatedBatch :=
  match torch_stack (examples.map (fun e => e.pixel_values)),
        torch_tensor_2d (examples.map (fun e => e.labels)) with
  | some p, some l => some ⟨p, l⟩
  | _, _ => none

/-- Decoding a multi-hot vector against a vocabulary: collect the
vocabulary tokens at the indices whose entry is `1` (the decoding step
described by the round-trip property of the specification). -/
def decodeSetBits (vocab : List PyStr) (v : List ℚ) : List PyStr :=
  ((vocab.zip v).filter (fun p => decide (p.2 = 1))).map (fun p => p.1)

/-- The sentinel label of the dataset. -/
def noFindingStr : PyStr := "No Finding".toList

/-! ### Properties of `splitPipe` and `joinPipe` -/

theorem splitPipe_ne_nil (s : PyStr) : splitPipe s ≠ [] := by
  induction s with
  | nil => simp [splitPipe]
  | cons c cs ih =>
    simp only [splitPipe]
    split
    · simp
    · cases h : splitPipe cs <;> simp

theorem not_pipe_of_mem_splitPipe {s t : PyStr} (h : t ∈ splitPipe s) : pipeChar ∉ t := by
  induction s generalizing t with
  | nil =>
    simp only [splitPipe, List.mem_singleton] at h
    subst h; simp
  | cons c cs ih =>
    by_cases hc : c = pipeChar
    · rw [show splitPipe (c :: cs) = [] :: splitPipe cs by simp [splitPipe, hc]] at h
      rcases List.mem_cons.mp h with rfl | h
      · simp
      · exact ih h
    · revert h
      simp only [splitPipe, if_neg hc]
      cases hsp : splitPipe cs with
      | nil => exact absurd hsp (splitPipe_ne_nil cs)
      | cons t0 ts =>
        intro h
        rcases List.mem_cons.mp h with rfl | h
        · intro hp
          rcases List.mem_cons.mp hp with hp | hp
          · exact hc hp.symm
          · exact ih (hsp ▸ List.mem_cons_self t0 ts) hp
        · exact ih (hsp ▸ List.mem_cons_of_mem t0 h)

theorem splitPipe_of_not_pipe {s : PyStr} (h : pipeChar ∉ s) : splitPipe s = [s] := by
  induction s with
  | nil => rfl
  | cons c cs ih =>
    have hc : ¬ c = pipeChar := by rintro rfl; exact h (List.mem_cons_self _ _)
    have hcs : pipeChar ∉ cs := fun hm => h (List.mem_cons_of_mem c hm)
    simp [splitPipe, hc, ih hcs]

theorem splitPipe_append_pipe {t : PyStr} (r : PyStr) (h : pipeChar ∉ t) :
    splitPipe (t ++ pipeChar :: r) = t :: splitPipe r := by
  induction t with
  | nil => simp [splitPipe]
  | cons c cs ih =>
    have hc : ¬ c = pipeChar := by rintro rfl; exact h (List.mem_cons_self _ _)
    have hcs : pipeChar ∉ cs := fun hm => h (List.mem_cons_of_mem c hm)
    have ih' : splitPipe (List.append cs (pipeChar :: r)) = cs :: splitPipe r := ih hcs
    simp only [List.cons_append, splitPipe, if_neg hc, ih']

theorem splitPipe_joinPipe {toks : List PyStr} (hne : toks ≠ [])
    (h : ∀ t ∈ toks, pipeChar ∉ t) : splitPipe (joinPipe toks) = toks := by
  induction toks with
  | nil => exact absurd rfl hne
  | cons t ts ih =>
    cases ts with
    | nil => simpa [joinPipe] using splitPipe_of_not_pipe (h t (by simp))
    | cons t2 ts2 =>
      have hj : joinPipe (t :: t2 :: ts2) = t ++ pipeChar :: joinPipe (t2 :: ts2) := rfl
      rw [hj, splitPipe_append_pipe _ (h t (by simp)),
        ih (by simp) (fun u hu => h u (List.mem_cons_of_mem _ hu))]

/-! ### Properties of `unique_labels` -/

theorem mem_unique_labels {col : List PyStr} {x : PyStr} :
    x ∈ unique_labels col ↔ x ∈ col.flatMap splitPipe := by
  rw [unique_labels, List.mem_insertionSort, List.mem_dedup]

theorem unique_labels_sorted (col : List PyStr) :
    List.Sorted (· ≤ ·) (unique_labels col) :=
  List.sorted_insertionSort _ _

theorem unique_labels_nodup (col : List PyStr) : (unique_labels col).Nodup :=
  (List.perm_insertionSort _ _).nodup_iff.mpr (List.nodup_dedup _)

theorem not_pipe_of_mem_unique_labels {col : List PyStr} {x : PyStr}
    (h : x ∈ unique_labels col) : pipeChar ∉ x := by
  rcases List.mem_flatMap.mp (mem_unique_labels.mp h) with ⟨s, _, hx⟩
  exact not_pipe_of_mem_splitPipe hx

/-! ### Properties of `label_index` -/

theorem label_index_eq_none {vocab : List PyStr} {t : PyStr} :
    label_index vocab t = none ↔ t ∉ vocab := by
  induction vocab with
  | nil => simp [label_index]
  | cons v vs ih =>
    by_cases hv : v = t
    · subst hv
      simp [label_index]
    · rw [label_index, if_neg hv, Option.map_eq_none', ih, List.mem_cons, not_or]
      constructor
      · intro h
        exact ⟨fun ht => hv ht.symm, h⟩
      · intro h
        exact h.2

theorem label_index_getElem {vocab : List PyStr} (hnd : vocab.Nodup) :
    ∀ (i : Nat) (h : i < vocab.length), label_index vocab vocab[i] = some i := by
  induction vocab with
  | nil =>
    intro i h
    simp at h
  | cons v vs ih =>
    intro i h
    rcases List.nodup_cons.mp hnd with ⟨hv, hnd'⟩
    cases i with
    | zero => simp [label_index]
    | succ j =>
      have hj : j < vs.length := Nat.lt_of_succ_lt_succ (by simpa using h)
      have hget : (v :: vs)[j + 1] = vs[j] := List.getElem_cons_succ ..
      rw [hget]
      have hne : ¬ v = vs[j] := fun he => hv (he ▸ List.getElem_mem hj)
      rw [label_index, if_neg hne, ih hnd' j hj]
      rfl

theorem label_index_some {vocab : List PyStr} {t : PyStr} {i : Nat}
    (h : label_index vocab t = some i) : ∃ hi : i < vocab.length, vocab[i] = t := by
  induction vocab generalizing i with
  | nil => simp [label_index] at h
  | cons v vs ih =>
    by_cases hv : v = t
    · subst hv
      rw [label_index, if_pos rfl] at h
      obtain rfl : i = 0 := by injection h with h; exact h.symm
      exact ⟨by simp, rfl⟩
    · rw [label_index, if_neg hv, Option.map_eq_some'] at h
      rcases h with ⟨j, hj, rfl⟩
      rcases ih hj with ⟨hlt, hget⟩
      exact ⟨by simpa using Nat.succ_lt_succ hlt, by simpa using hget⟩

/-! ### Properties of `collectIndices` -/

theorem collectIndices_eq_none {vocab : List PyStr} {ts : List PyStr} :
    collectIndices vocab ts = none ↔ ∃ t ∈ ts, label_index vocab t = none := by
  induction ts with
  | nil => simp [collectIndices]
  | cons t ts ih =>
    cases h1 : label_index vocab t with
    | none =>
      refine iff_of_true ?_ ⟨t, List.mem_cons_self _ _, h1⟩
      rw [collectIndices, h1]
    | some i =>
      cases h2 : collectIndices vocab ts with
      | none =>
        rcases ih.mp h2 with ⟨u, hu, hnone⟩
        refine iff_of_true ?_ ⟨u, List.mem_cons_of_mem _ hu, hnone⟩
        rw [collectIndices, h1, h2]
      | some is =>
        refine iff_of_false ?_ ?_
        · rw [collectIndices, h1, h2]
          simp
        · rintro ⟨u, hu, hnone⟩
          rcases List.mem_cons.mp hu with rfl | hu
          · rw [h1] at hnone
            cases hnone
          · rw [ih.mpr ⟨u, hu, hnone⟩] at h2
            cases h2

theorem collectIndices_eq_some {vocab : List PyStr} {ts : List PyStr} {is : List Nat}
    (h : collectIndices vocab ts = some is) :
    ∀ i : Nat, i ∈ is ↔ ∃ t ∈ ts, label_index vocab t = some i := by
  induction ts generalizing is with
  | nil =>
    rw [collectIndices] at h
    injection h with h
    subst h
    simp
  | cons t ts ih =>
    intro i
    rw [collectIndices] at h
    cases h1 : label_index vocab t with
    | none =>
      rw [h1] at h
      cases h
    | some j =>
      rw [h1] at h
      cases h2 : collectIndices vocab ts with
      | none =>
        rw [h2] at h
        cases h
      | some js =>
        rw [h2] at h
        injection h with h
        subst h
        constructor
        · intro hi
          rcases List.mem_cons.mp hi with rfl | hi
          · exact ⟨t, List.mem_cons_self _ _, h1⟩
          · rcases (ih h2 i).mp hi with ⟨u, hu, hl⟩
            exact ⟨u, List.mem_cons_of_mem _ hu, hl⟩
        · rintro ⟨u, hu, hl⟩
          rcases List.mem_cons.mp hu with rfl | hu
          · rw [h1] at hl
            injection hl with hl
            subst hl
            exact List.mem_cons_self _ _
          · exact List.mem_cons_of_mem _ ((ih h2 i).mpr ⟨u, hu, hl⟩)

theorem collectIndices_isSome {vocab : List PyStr} {ts : List PyStr}
    (h : ∀ t ∈ ts, t ∈ vocab) : ∃ is, collectIndices vocab ts = some is := by
  cases hc : collectIndices vocab ts with
  | some is => exact ⟨is, rfl⟩
  | none =>
    rcases collectIndices_eq_none.mp hc with ⟨t, ht, hnone⟩
    exact absurd (h t ht) (label_index_eq_none.mp hnone)

/-! ### Characterization of `string_to_N_hot` -/

theorem getD_eq_getElem_of_lt {α : Type} (l : List α) (d : α) {i : Nat}
    (h : i < l.length) : l.getD i d = l[i] := by
  rw [List.getD_eq_getElem?_getD, List.getElem?_eq_getElem h]
  rfl

theorem string_to_N_hot_characterization {vocab : List PyStr} {s : PyStr}
    (hnd : vocab.Nodup) (hall : ∀ t ∈ splitPipe s, t ∈ vocab) :
    ∃ v, string_to_N_hot vocab s = some v ∧ v.length = vocab.length ∧
      ∀ i, i < vocab.length →
        v.getD i 0 = if vocab.getD i [] ∈ splitPipe s then (1 : ℚ) else 0 := by
  rcases collectIndices_isSome hall with ⟨is, his⟩
  refine ⟨(List.range vocab.length).map (fun j => if j ∈ is then (1 : ℚ) else 0),
    ?_, by simp, ?_⟩
  · rw [string_to_N_hot, his]
  · intro i hi
    have hv : ((List.range vocab.length).map
        (fun j => if j ∈ is then (1 : ℚ) else 0)).getD i 0
        = if i ∈ is then (1 : ℚ) else 0 := by
      rw [List.getD_eq_getElem?_getD, List.getElem?_map, List.getElem?_range hi]
      rfl
    rw [hv, getD_eq_getElem_of_lt _ _ hi]
    have key : i ∈ is ↔ vocab[i] ∈ splitPipe s := by
      rw [collectIndices_eq_some his i]
      constructor
      · rintro ⟨t, ht, hl⟩
        rcases label_index_some hl with ⟨hlt, hget⟩
        rw [hget]
        exact ht
      · intro hmem
        exact ⟨vocab[i], hmem, label_index_getElem hnd i hi⟩
    simp only [key]

/-! ### Decoding -/

theorem mem_decodeSetBits {vocab : List PyStr} {v : List ℚ} {x : PyStr} :
    x ∈ decodeSetBits vocab v ↔
      ∃ i, ∃ h1 : i < vocab.length, ∃ h2 : i < v.length, vocab[i] = x ∧ v[i] = 1 := by
  rw [decodeSetBits]
  simp only [List.mem_map, List.mem_filter]
  constructor
  · rintro ⟨p, ⟨hp, hp2⟩, rfl⟩
    rcases List.mem_iff_getElem.mp hp with ⟨i, hi, hgi⟩
    have hlen : i < vocab.length ⊓ v.length := by
      rw [← List.length_zip]
      exact hi
    have h1 : i < vocab.length := lt_of_lt_of_le hlen inf_le_left
    have h2 : i < v.length := lt_of_lt_of_le hlen inf_le_right
    rw [List.getElem_zip] at hgi
    refine ⟨i, h1, h2, ?_, ?_⟩
    · rw [← hgi]
    · rw [← hgi] at hp2
      exact of_decide_eq_true hp2
  · rintro ⟨i, h1, h2, hx, hv1⟩
    refine ⟨(vocab[i], v[i]), ⟨?_, by simp [hv1]⟩, hx⟩
    have hlen : i < (vocab.zip v).length := by
      rw [List.length_zip]
      exact lt_min h1 h2
    rw [List.mem_iff_getElem]
    exact ⟨i, hlen, List.getElem_zip⟩

/-! ### Properties of stacking and collation -/

theorem torch_stack_of_uniform {ts : List PyTensor} {sh : List Nat}
    (hne : ts ≠ []) (h : ∀ t ∈ ts, t.shape = sh) :
    torch_stack ts = some ⟨ts.length :: sh, ts.flatMap (fun u => u.data)⟩ := by
  cases ts with
  | nil => exact absurd rfl hne
  | cons t rest =>
    have hcond : rest.all (fun u => decide (u.shape = t.shape)) = true := by
      rw [List.all_eq_true]
      intro u hu
      rw [decide_eq_true_eq, h u (List.mem_cons_of_mem _ hu), h t (List.mem_cons_self _ _)]
    rw [torch_stack, if_pos hcond, h t (List.mem_cons_self _ _)]

theorem torch_tensor_2d_of_uniform {rows : List (List ℚ)} {m : Nat}
    (hne : rows ≠ []) (h : ∀ r ∈ rows, r.length = m) :
    torch_tensor_2d rows = some ⟨[rows.length, m], rows.flatMap id⟩ := by
  cases rows with
  | nil => exact absurd rfl hne
  | cons r rest =>
    have hcond : rest.all (fun u => decide (u.length = r.length)) = true := by
      rw [List.all_eq_true]
      intro u hu
      rw [decide_eq_true_eq, h u (List.mem_cons_of_mem _ hu), h r (List.mem_cons_self _ _)]
    rw [torch_tensor_2d, if_pos hcond, h r (List.mem_cons_self _ _)]

theorem torch_stack_mismatch {ts : List PyTensor}
    (h : ∃ a ∈ ts, ∃ b ∈ ts, a.shape ≠ b.shape) : torch_stack ts = none := by
  rcases h with ⟨a, ha, b, hb, hab⟩
  cases ts with
  | nil => simp at ha
  | cons t rest =>
    have hcond : rest.all (fun u => decide (u.shape = t.shape)) = false := by
      cases hc : rest.all (fun u => decide (u.shape = t.shape)) with
      | false => rfl
      | true =>
        rw [List.all_eq_true] at hc
        have key : ∀ u ∈ t :: rest, u.shape = t.shape := by
          intro u hu
          rcases List.mem_cons.mp hu with rfl | hu
          · rfl
          · exact of_decide_eq_true (hc u hu)
        exact absurd ((key a ha).trans (key b hb).symm) hab
    rw [torch_stack, hcond]
    simp

theorem torch_tensor_2d_mismatch {rows : List (List ℚ)}
    (h : ∃ a ∈ rows, ∃ b ∈ rows, a.length ≠ b.length) : torch_tensor_2d rows = none := by
  rcases h with ⟨a, ha, b, hb, hab⟩
  cases rows with
  | nil => simp at ha
  | cons r rest =>
    have hcond : rest.all (fun u => decide (u.length = r.length)) = false := by
      cases hc : rest.all (fun u => decide (u.length = r.length)) with
      | false => rfl
      | true =>
        rw [List.all_eq_true] at hc
        have key : ∀ u ∈ r :: rest, u.length = r.length := by
          intro u hu
          rcases List.mem_cons.mp hu with rfl | hu
          · rfl
          · exact of_decide_eq_true (hc u hu)
        exact absurd ((key a ha).trans (key b hb).symm) hab
    rw [torch_tensor_2d, hcond]
    simp

/-! ### The claims -/

/-- **C1**: for every raw label string formed by joining a (non-empty) set of
vocabulary tokens with the `"|"` delimiter, `string_to_N_hot` produces a
multi-hot vector, and collecting the vocabulary tokens at the indices whose
entry is `1` yields exactly the same set of tokens as splitting the input
string (order-independent round trip). -/
theorem roundtrip_encode_decode (col : List PyStr) (toks : List PyStr)
    (hne : toks ≠ []) (_hnd : toks.Nodup)
    (hsub : ∀ t ∈ toks, t ∈ unique_labels col) :
    ∃ v, string_to_N_hot (unique_labels col) (joinPipe toks) = some v ∧
      (decodeSetBits (unique_labels col) v).toFinset =
        (splitPipe (joinPipe toks)).toFinset := by
  have hsplit : splitPipe (joinPipe toks) = toks :=
    splitPipe_joinPipe hne (fun t ht => not_pipe_of_mem_unique_labels (hsub t ht))
  have hall : ∀ t ∈ splitPipe (joinPipe toks), t ∈ unique_labels col := by
    rw [hsplit]
    exact hsub
  rcases string_to_N_hot_characterization (unique_labels_nodup col) hall with
    ⟨v, hv, hlen, hget⟩
  refine ⟨v, hv, ?_⟩
  ext x
  rw [List.mem_toFinset, List.mem_toFinset, hsplit, mem_decodeSetBits]
  constructor
  · rintro ⟨i, h1, h2, rfl, hv1⟩
    have hgd := hget i h1
    rw [getD_eq_getElem_of_lt _ _ h2, getD_eq_getElem_of_lt _ _ h1, hsplit] at hgd
    by_cases hmem : (unique_labels col)[i] ∈ toks
    · exact hmem
    · rw [if_neg hmem, hv1] at hgd
      exact absurd hgd one_ne_zero
  · intro hx
    rcases List.mem_iff_getElem.mp (hsub x hx) with ⟨i, hi, hgi⟩
    have h2 : i < v.length := by
      rw [hlen]
      exact hi
    refine ⟨i, hi, h2, hgi, ?_⟩
    have hgd := hget i hi
    rw [getD_eq_getElem_of_lt _ _ h2, getD_eq_getElem_of_lt _ _ hi, hsplit, hgi] at hgd
    rw [hgd, if_pos hx]

theorem roundtrip_encode_decode_witness :
    ((["Infiltration".toList, "Effusion".toList] : List PyStr) ≠ []) ∧
    (["Infiltration".toList, "Effusion".toList] : List PyStr).Nodup ∧
    (∀ t ∈ (["Infiltration".toList, "Effusion".toList] : List PyStr),
      t ∈ unique_labels ["Effusion|Infiltration".toList, "No Finding".toList]) ∧
    (∃ v, string_to_N_hot (unique_labels ["Effusion|Infiltration".toList, "No Finding".toList])
        (joinPipe ["Infiltration".toList, "Effusion".toList]) = some v ∧
      (decodeSetBits (unique_labels ["Effusion|Infiltration".toList, "No Finding".toList]) v).toFinset =
        (splitPipe (joinPipe ["Infiltration".toList, "Effusion".toList])).toFinset) :=
  ⟨by decide, by decide, by decide,
    roundtrip_encode_decode _ _ (by decide) (by decide) (by decide)⟩

/-- **C2**: on a non-empty label column, vocabulary extraction returns the
sorted deduplicated list of all tokens obtained by splitting each string on
`"|"` and flattening (sorted, duplicate-free, and holding exactly the split
tokens); it is deterministic (two runs agree), and the index assignment maps
the `i`-th vocabulary entry to index `i`, so the number of assigned indices
equals the vocabulary cardinality. -/
theorem unique_labels_spec (col : List PyStr) (_hcol : col ≠ []) :
    List.Sorted (· ≤ ·) (unique_labels col) ∧
    (unique_labels col).Nodup ∧
    (∀ x, x ∈ unique_labels col ↔ x ∈ col.flatMap splitPipe) ∧
    unique_labels col = unique_labels col ∧
    (unique_labels col).map (label_index (unique_labels col)) =
      (List.range (unique_labels col).length).map some := by
  refine ⟨unique_labels_sorted col, unique_labels_nodup col,
    fun x => mem_unique_labels, rfl, ?_⟩
  apply List.ext_getElem
  · simp
  · intro n h1 h2
    rw [List.getElem_map, List.getElem_map, List.getElem_range]
    exact label_index_getElem (unique_labels_nodup col) n (by simpa using h1)

theorem unique_labels_spec_witness :
    ((["b|a".toList] : List PyStr) ≠ []) ∧
    (List.Sorted (· ≤ ·) (unique_labels ["b|a".toList]) ∧
     (unique_labels ["b|a".toList]).Nodup ∧
     (∀ x, x ∈ unique_labels ["b|a".toList] ↔
        x ∈ (["b|a".toList] : List PyStr).flatMap splitPipe) ∧
     unique_labels ["b|a".toList] = unique_labels ["b|a".toList] ∧
     (unique_labels ["b|a".toList]).map (label_index (unique_labels ["b|a".toList])) =
       (List.range (unique_labels ["b|a".toList]).length).map some) :=
  ⟨by decide, unique_labels_spec ["b|a".toList] (by decide)⟩

/-- **C3**: encoding a raw label string fails (an uncaught `KeyError`,
modelled by `none`) if and only if some token produced by splitting the
string on `"|"` is absent from the vocabulary; when every token is in the
vocabulary, encoding succeeds. -/
theorem string_to_N_hot_fails_iff (vocab : List PyStr) (s : PyStr) :
    string_to_N_hot vocab s = none ↔ ∃ t ∈ splitPipe s, t ∉ vocab := by
  cases hc : collectIndices vocab (splitPipe s) with
  | none =>
    rcases collectIndices_eq_none.mp hc with ⟨t, ht, hnone⟩
    refine iff_of_true ?_ ⟨t, ht, label_index_eq_none.mp hnone⟩
    rw [string_to_N_hot, hc]
  | some is =>
    refine iff_of_false ?_ ?_
    · rw [string_to_N_hot, hc]
      simp
    · rintro ⟨t, ht, hnv⟩
      rw [collectIndices_eq_none.mpr ⟨t, ht, label_index_eq_none.mpr hnv⟩] at hc
      cases hc

/-- **C4**: when every split token of the raw label string is in the
(duplicate-free) vocabulary, `string_to_N_hot` returns a vector of the
vocabulary's length, with entry `1` exactly at the vocabulary indices whose
token occurs in the split string and `0` everywhere else.  The embedding is
a pure function of the vocabulary and the string, so it has no side effects
on either. -/
theorem string_to_N_hot_spec (vocab : List PyStr) (s : PyStr) (hnd : vocab.Nodup)
    (hall : ∀ t ∈ splitPipe s, t ∈ vocab) :
    ∃ v, string_to_N_hot vocab s = some v ∧ v.length = vocab.length ∧
      ∀ i, i < vocab.length →
        v.getD i 0 = if vocab.getD i [] ∈ splitPipe s then (1 : ℚ) else 0 :=
  string_to_N_hot_characterization hnd hall

theorem string_to_N_hot_spec_witness :
    (["a".toList, "b".toList] : List PyStr).Nodup ∧
    (∀ t ∈ splitPipe "b|a".toList, t ∈ (["a".toList, "b".toList] : List PyStr)) ∧
    (∃ v, string_to_N_hot ["a".toList, "b".toList] "b|a".toList = some v ∧
      v.length = (["a".toList, "b".toList] : List PyStr).length ∧
      ∀ i, i < (["a".toList, "b".toList] : List PyStr).length →
        v.getD i 0 = if (["a".toList, "b".toList] : List PyStr).getD i [] ∈
          splitPipe "b|a".toList then (1 : ℚ) else 0) :=
  ⟨by decide, by decide, string_to_N_hot_spec _ _ (by decide) (by decide)⟩

/-- **C5**: with the sorted vocabulary `["Effusion", "Infiltration",
"No Finding"]`, encoding `"Effusion|Infiltration"`, `"No Finding"` and
`"Infiltration"` yields the vectors `[1,1,0]`, `[0,0,1]` and `[0,1,0]`
respectively. -/
theorem walkthrough_example_encodings :
    string_to_N_hot ["Effusion".toList, "Infiltration".toList, "No Finding".toList]
      "Effusion|Infiltration".toList = some [1, 1, 0] ∧
    string_to_N_hot ["Effusion".toList, "Infiltration".toList, "No Finding".toList]
      "No Finding".toList = some [0, 0, 1] ∧
    string_to_N_hot ["Effusion".toList, "Infiltration".toList, "No Finding".toList]
      "Infiltration".toList = some [0, 1, 0] :=
  ⟨by decide, by decide, by decide⟩

/-- **C6**: if the metadata file already exists, materialization performs no
write and the contents are unchanged; if it does not exist, exactly one
record per input row — with fields `file_name` and `labels` — is written,
in row order. -/
theorem write_metadata_spec (existing : List MetaRecord) (rows : List (PyStr × List ℚ)) :
    write_metadata (some existing) rows = some existing ∧
    write_metadata none rows = some (rows.map (fun r => ⟨r.1, r.2⟩)) ∧
    (rows.map (fun r : PyStr × List ℚ => (⟨r.1, r.2⟩ : MetaRecord))).length = rows.length :=
  ⟨rfl, rfl, by simp⟩

/-- **C7**, counterexample: the claim quantifies over every finite sequence,
but on the empty sequence `torch.stack` raises (`stack expects a non-empty
TensorList`), so the collator returns no batch at all. -/
theorem vit_data_collator_empty_fails :
    vit_data_collator [] = none ∧ ¬ ∃ b, vit_data_collator [] = some b := by
  refine ⟨rfl, ?_⟩
  rintro ⟨b, hb⟩
  exact Option.noConfusion hb

/-- **C7** (amended: for every *non-empty* ordered sequence of transformed
examples with one shared pixel shape and one shared label length): the
collator returns the batch structure with exactly the keys `pixel_values`
and `labels`, stacking the pixel tensors along a new leading batch dimension
and the label vectors likewise, preserving input order. -/
theorem vit_data_collator_spec (examples : List TransformedExample)
    (sh : List Nat) (m : Nat) (hne : examples ≠ [])
    (hsh : ∀ e ∈ examples, e.pixel_values.shape = sh)
    (hm : ∀ e ∈ examples, e.labels.length = m) :
    ∃ b, vit_data_collator examples = some b ∧
      b.pixel_values.shape = examples.length :: sh ∧
      b.pixel_values.data = examples.flatMap (fun e => e.pixel_values.data) ∧
      b.labels.shape = [examples.length, m] ∧
      b.labels.data = examples.flatMap (fun e => e.labels) := by
  have hne1 : examples.map (fun e => e.pixel_values) ≠ [] := by
    cases examples with
    | nil => exact absurd rfl hne
    | cons e es => simp
  have hne2 : examples.map (fun e => e.labels) ≠ [] := by
    cases examples with
    | nil => exact absurd rfl hne
    | cons e es => simp
  have hstack : torch_stack (examples.map (fun e => e.pixel_values)) =
      some ⟨(examples.map (fun e => e.pixel_values)).length :: sh,
        (examples.map (fun e => e.pixel_values)).flatMap (fun u => u.data)⟩ := by
    apply torch_stack_of_uniform hne1
    intro u hu
    rcases List.mem_map.mp hu with ⟨e, he, rfl⟩
    exact hsh e he
  have htensor : torch_tensor_2d (examples.map (fun e => e.labels)) =
      some ⟨[(examples.map (fun e => e.labels)).length, m],
        (examples.map (fun e => e.labels)).flatMap id⟩ := by
    apply torch_tensor_2d_of_uniform hne2
    intro u hu
    rcases List.mem_map.mp hu with ⟨e, he, rfl⟩
    exact hm e he
  refine ⟨⟨⟨examples.length :: sh, examples.flatMap (fun e => e.pixel_values.data)⟩,
    ⟨[examples.length, m], examples.flatMap (fun e => e.labels)⟩⟩, ?_, rfl, rfl, rfl, rfl⟩
  rw [vit_data_collator, hstack, htensor]
  simp [List.flatMap_map, List.length_map]

theorem vit_data_collator_spec_witness :
    (([⟨⟨[2], [1, 2]⟩, [1, 0]⟩, ⟨⟨[2], [3, 4]⟩, [0, 1]⟩] : List TransformedExample) ≠ []) ∧
    (∀ e ∈ ([⟨⟨[2], [1, 2]⟩, [1, 0]⟩, ⟨⟨[2], [3, 4]⟩, [0, 1]⟩] : List TransformedExample),
      e.pixel_values.shape = [2]) ∧
    (∀ e ∈ ([⟨⟨[2], [1, 2]⟩, [1, 0]⟩, ⟨⟨[2], [3, 4]⟩, [0, 1]⟩] : List TransformedExample),
      e.labels.length = 2) ∧
    (∃ b, vit_data_collator
        ([⟨⟨[2], [1, 2]⟩, [1, 0]⟩, ⟨⟨[2], [3, 4]⟩, [0, 1]⟩] : List TransformedExample) = some b ∧
      b.pixel_values.shape =
        ([⟨⟨[2], [1, 2]⟩, [1, 0]⟩, ⟨⟨[2], [3, 4]⟩, [0, 1]⟩] : List TransformedExample).length :: [2] ∧
      b.pixel_values.data =
        ([⟨⟨[2], [1, 2]⟩, [1, 0]⟩, ⟨⟨[2], [3, 4]⟩, [0, 1]⟩] : List TransformedExample).flatMap
          (fun e => e.pixel_values.data) ∧
      b.labels.shape =
        [([⟨⟨[2], [1, 2]⟩, [1, 0]⟩, ⟨⟨[2], [3, 4]⟩, [0, 1]⟩] : List TransformedExample).length, 2] ∧
      b.labels.data =
        ([⟨⟨[2], [1, 2]⟩, [1, 0]⟩, ⟨⟨[2], [3, 4]⟩, [0, 1]⟩] : List TransformedExample).flatMap
          (fun e => e.labels)) :=
  ⟨by decide, by decide, by decide,
    vit_data_collator_spec _ [2] 2 (by decide) (by decide) (by decide)⟩

/-- **C8**: if two examples have pixel tensors of different shapes, or label
vectors of different lengths, collation fails and the error propagates to
the caller (`none`): no partial batch is returned and nothing is recovered
locally. -/
theorem vit_data_collator_mismatch (examples : List TransformedExample)
    (h : (∃ a ∈ examples, ∃ b ∈ examples, a.pixel_values.shape ≠ b.pixel_values.shape) ∨
         (∃ a ∈ examples, ∃ b ∈ examples, a.labels.length ≠ b.labels.length)) :
    vit_data_collator examples = none := by
  rcases h with h | h
  · have hs : torch_stack (examples.map (fun e => e.pixel_values)) = none := by
      apply torch_stack_mismatch
      rcases h with ⟨a, ha, b, hb, hab⟩
      exact ⟨a.pixel_values, List.mem_map_of_mem _ ha,
        b.pixel_values, List.mem_map_of_mem _ hb, hab⟩
    rw [vit_data_collator, hs]
  · have ht : torch_tensor_2d (examples.map (fun e => e.labels)) = none := by
      apply torch_tensor_2d_mismatch
      rcases h with ⟨a, ha, b, hb, hab⟩
      exact ⟨a.labels, List.mem_map_of_mem _ ha, b.labels, List.mem_map_of_mem _ hb, hab⟩
    rw [vit_data_collator, ht]
    cases torch_stack (examples.map (fun e => e.pixel_values)) <;> rfl

theorem vit_data_collator_mismatch_witness :
    ((∃ a ∈ ([⟨⟨[1], [1]⟩, [1]⟩, ⟨⟨[2], [1, 2]⟩, [1]⟩] : List TransformedExample),
      ∃ b ∈ ([⟨⟨[1], [1]⟩, [1]⟩, ⟨⟨[2], [1, 2]⟩, [1]⟩] : List TransformedExample),
        a.pixel_values.shape ≠ b.pixel_values.shape) ∨
     (∃ a ∈ ([⟨⟨[1], [1]⟩, [1]⟩, ⟨⟨[2], [1, 2]⟩, [1]⟩] : List TransformedExample),
      ∃ b ∈ ([⟨⟨[1], [1]⟩, [1]⟩, ⟨⟨[2], [1, 2]⟩, [1]⟩] : List TransformedExample),
        a.labels.length ≠ b.labels.length)) ∧
    vit_data_collator ([⟨⟨[1], [1]⟩, [1]⟩, ⟨⟨[2], [1, 2]⟩, [1]⟩] : List TransformedExample) = none :=
  ⟨by decide, vit_data_collator_mismatch _ (by decide)⟩

/-- **C9**: encoding is deterministic — with a fixed vocabulary, two runs of
`string_to_N_hot` on an identical input string yield identical vectors; in
this embedding the result is a function of the vocabulary and the string
alone (no hidden state). -/
theorem string_to_N_hot_deterministic (vocab : List PyStr) (s1 s2 : PyStr)
    (h : s1 = s2) : string_to_N_hot vocab s1 = string_to_N_hot vocab s2 := by
  rw [h]

theorem string_to_N_hot_deterministic_witness :
    "a|b".toList = "a|b".toList ∧
    string_to_N_hot ["a".toList, "b".toList] "a|b".toList =
      string_to_N_hot ["a".toList, "b".toList] "a|b".toList :=
  ⟨rfl, string_to_N_hot_deterministic _ _ _ rfl⟩

/-- **C10**: the sentinel `"No Finding"` is not special-cased: when the label
column contains it, it is an ordinary vocabulary entry, and encoding the raw
string `"No Finding"` yields a vector with `1` exactly at the `"No Finding"`
index and `0` elsewhere — never an all-zero vector. -/
theorem no_finding_not_special (col : List PyStr)
    (h : ∃ s ∈ col, noFindingStr ∈ splitPipe s) :
    noFindingStr ∈ unique_labels col ∧
    ∃ v, string_to_N_hot (unique_labels col) noFindingStr = some v ∧
      v.length = (unique_labels col).length ∧
      (∀ i, i < (unique_labels col).length →
        v.getD i 0 =
          if (unique_labels col).getD i [] = noFindingStr then (1 : ℚ) else 0) ∧
      v ≠ List.replicate (unique_labels col).length 0 := by
  have hmem : noFindingStr ∈ unique_labels col :=
    mem_unique_labels.mpr (List.mem_flatMap.mpr h)
  have hsplit : splitPipe noFindingStr = [noFindingStr] :=
    splitPipe_of_not_pipe (by decide)
  have hall : ∀ t ∈ splitPipe noFindingStr, t ∈ unique_labels col := by
    rw [hsplit]
    intro t ht
    rw [List.mem_singleton.mp ht]
    exact hmem
  rcases string_to_N_hot_characterization (unique_labels_nodup col) hall with
    ⟨v, hv, hlen, hget⟩
  have hget' : ∀ i, i < (unique_labels col).length →
      v.getD i 0 =
        if (unique_labels col).getD i [] = noFindingStr then (1 : ℚ) else 0 := by
    intro i hi
    rw [hget i hi, hsplit]
    simp [List.mem_singleton]
  refine ⟨hmem, v, hv, hlen, hget', ?_⟩
  intro hzero
  rcases List.mem_iff_getElem.mp hmem with ⟨i, hi, hgi⟩
  have h1 : v.getD i 0 = 1 := by
    rw [hget' i hi, getD_eq_getElem_of_lt _ _ hi, hgi, if_pos rfl]
  rw [hzero] at h1
  have h0 : (List.replicate (unique_labels col).length (0 : ℚ)).getD i 0 = 0 := by
    rw [List.getD_eq_getElem?_getD, List.getElem?_replicate, if_pos hi]
    rfl
  rw [h0] at h1
  exact one_ne_zero h1.symm

theorem no_finding_not_special_witness :
    (∃ s ∈ ([noFindingStr] : List PyStr), noFindingStr ∈ splitPipe s) ∧
    (noFindingStr ∈ unique_labels [noFindingStr] ∧
     ∃ v, string_to_N_hot (unique_labels [noFindingStr]) noFindingStr = some v ∧
       v.length = (unique_labels [noFindingStr]).length ∧
       (∀ i, i < (unique_labels [noFindingStr]).length →
         v.getD i 0 =
           if (unique_labels [noFindingStr]).getD i [] = noFindingStr then (1 : ℚ) else 0) ∧
       v ≠ List.replicate (unique_labels [noFindingStr]).length 0) :=
  ⟨by decide, no_finding_not_special [noFindingStr] (by decide)⟩
